import Mathlib

/-!
Verification development for the jobqueue repository: a persistent,
topic-based job queue with a scheduling/dispatch core.

The repository's visible surface is the `Store` interface (store.go), the
`Processor` function type (processor.go) and the e2e demo driver
(e2e/main.go).  The scheduling core itself (Job record and state machine,
Manager, rank pools, dispatch loop, execution wrapper) is specified in
spec.md; where its code is absent we model it from the specification,
marked `Modelled from the spec:` below.  The e2e driver's control flow is
embedded directly from e2e/main.go.
-/

namespace JobQueue

/-- Modelled from the spec: the four job lifecycle states of §4.1
(`Waiting → Working → {Succeeded | Waiting(retry) | Failed}`); the Job
state machine code is not under src/. -/
inductive JobState where
  | Waiting
  | Working
  | Succeeded
  | Failed
deriving DecidableEq

/-- Modelled from the spec: the Job record of §3 (the Go `Job` struct is
not under src/; its fields are those the spec's data model names).
`args` stands for the opaque payload, `createdAt` for the creation
timestamp used in the `Next` tie-break. -/
structure Job where
  id : Nat
  topic : String
  rank : Nat
  priority : Int
  maxRetry : Nat
  retryCount : Nat
  correlationID : String
  correlationGroup : String
  args : String
  state : JobState
  createdAt : Nat
  lastError : Option String
deriving DecidableEq

/-- Modelled from the spec: the `Next` ordering obligation of §4.4/§6.1 —
job `a` is dispatched strictly before job `b` when `a` has higher
priority, or equal priority and an earlier `CreatedAt`. -/
def better (a b : Job) : Bool :=
  decide (b.priority < a.priority) ||
    (decide (a.priority = b.priority) && decide (a.createdAt < b.createdAt))

/-- Picks the best job of a list under `better`, preferring the earlier
list element on an exact tie. -/
def pickBest : List Job → Option Job
  | [] => none
  | j :: rest =>
    match pickBest rest with
    | none => some j
    | some b => if better b j then some b else some j

/-- Modelled from the spec: the selection half of `Store.Next` (§6.1):
the highest-priority, oldest-eligible Waiting job, or `none` when no job
is ready.  The concrete store implementations are not under src/; the
interface contract is src/store.go lines 35-42. -/
def storeNext (js : List Job) : Option Job :=
  pickBest (js.filter fun j => decide (j.state = JobState.Waiting))

/-- Updates the job with identifier `i` by `f`, leaving all other jobs
in place. -/
def updJob (i : Nat) (f : Job → Job) (js : List Job) : List Job :=
  js.map fun x => if decide (x.id = i) then f x else x

/-- Modelled from the spec: the mark-Working half of `Store.Next`'s
atomic pop-and-mark (§4.1: `Working` is entered only via the store's
`Next`). -/
def markWorking (i : Nat) (js : List Job) : List Job :=
  updJob i (fun x => { x with state := JobState.Working }) js

/-- Modelled from the spec: the Execution Wrapper's outcome-to-state
mapping of §4.1/§4.5.  `none` is a successful handler run; `some e` is a
handler error with message `e`. -/
def execOutcome (outcome : Option String) (j : Job) : Job :=
  match outcome with
  | none => { j with state := JobState.Succeeded, lastError := none }
  | some e =>
    if j.retryCount < j.maxRetry then
      { j with retryCount := j.retryCount + 1, state := JobState.Waiting,
               lastError := some e }
    else
      { j with state := JobState.Failed, lastError := some e }

/-- Persisting an execution outcome for job `i` into the store. -/
def applyOutcome (i : Nat) (outcome : Option String) (js : List Job) : List Job :=
  updJob i (execOutcome outcome) js

/-- Modelled from the spec: the scheduler state — the store's jobs plus
the set of (job id, rank) pairs currently held by Execution Wrapper
instances (§3 Ownership: the Manager holds only a transient reference
while a job is dispatched/executed). -/
structure SysState where
  jobs : List Job
  held : List (Nat × Nat)
deriving DecidableEq

/-- The identifiers of the jobs in the store. -/
def ids (s : SysState) : List Nat := s.jobs.map Job.id

/-- Looks a job up by identifier, as `Store.Lookup` does. -/
def findJob (s : SysState) (i : Nat) : Option Job :=
  s.jobs.find? fun x => decide (x.id = i)

/-- Modelled from the spec: the rank pool's current `inFlight` counter
(§4.3), derived as the number of held executions of that rank. -/
def inFlight (s : SysState) (r : Nat) : Nat :=
  (s.held.filter fun p => decide (p.2 = r)).length

/-- Modelled from the spec: the atomic steps of the scheduling core.
`add` persists a fresh Waiting job (§4.7 `Add`); `next` is the dispatch
loop popping a ready job whose rank pool has spare capacity and handing
it to a wrapper (§4.4 steps 1-2); `finish` is the Execution Wrapper
persisting the outcome and releasing its hold (§4.5). -/
inductive Step (limit : Nat → Nat) : SysState → SysState → Prop
  | add (s : SysState) (j : Job) :
      j.state = JobState.Waiting → j.retryCount = 0 → j.id ∉ ids s →
      Step limit s ⟨s.jobs ++ [j], s.held⟩
  | next (s : SysState) (j : Job) :
      storeNext s.jobs = some j →
      inFlight s j.rank < limit j.rank →
      Step limit s ⟨markWorking j.id s.jobs, (j.id, j.rank) :: s.held⟩
  | finish (s : SysState) (i r : Nat) (outcome : Option String) :
      (i, r) ∈ s.held →
      Step limit s ⟨applyOutcome i outcome s.jobs, s.held.erase (i, r)⟩

/-- States reachable from the empty system by scheduler steps. -/
inductive Reachable (limit : Nat → Nat) : SysState → Prop
  | init : Reachable limit ⟨[], []⟩
  | step {s s' : SysState} : Reachable limit s → Step limit s s' →
      Reachable limit s'

lemma better_irrefl (a : Job) : better a a = false := by
  simp [better]

lemma better_asymm {a b : Job} (h : better a b = true) : better b a = false := by
  simp only [better, Bool.or_eq_true, Bool.and_eq_true, decide_eq_true_eq,
    Bool.or_eq_false_iff, Bool.and_eq_false_iff, decide_eq_false_iff_not] at h ⊢
  omega

lemma better_negtrans {x b a : Job} (h1 : better x b = false)
    (h2 : better b a = false) : better x a = false := by
  simp only [better, Bool.or_eq_false_iff, Bool.and_eq_false_iff,
    decide_eq_false_iff_not] at h1 h2 ⊢
  omega

lemma pickBest_eq_none {l : List Job} (h : pickBest l = none) : l = [] := by
  cases l with
  | nil => rfl
  | cons a rest =>
    rw [pickBest] at h
    cases hr : pickBest rest with
    | none =>
      rw [hr] at h
      replace h : some a = none := h
      exact Option.noConfusion h
    | some b =>
      rw [hr] at h
      replace h : (if better b a = true then some b else some a) = none := h
      split at h <;> exact Option.noConfusion h

lemma pickBest_mem : ∀ {l : List Job} {j : Job}, pickBest l = some j → j ∈ l := by
  intro l
  induction l with
  | nil => intro j h; simp [pickBest] at h
  | cons a rest ih =>
    intro j h
    rw [pickBest] at h
    cases hr : pickBest rest with
    | none =>
      rw [hr] at h
      replace h : some a = some j := h
      cases h
      exact List.mem_cons_self a rest
    | some b =>
      rw [hr] at h
      replace h : (if better b a = true then some b else some a) = some j := h
      by_cases hba : better b a = true
      · rw [if_pos hba] at h
        cases h
        exact List.mem_cons_of_mem a (ih hr)
      · rw [if_neg hba] at h
        cases h
        exact List.mem_cons_self a rest

lemma pickBest_maximal : ∀ {l : List Job} {j : Job}, pickBest l = some j →
    ∀ x ∈ l, better x j = false := by
  intro l
  induction l with
  | nil => intro j h; simp [pickBest] at h
  | cons a rest ih =>
    intro j h
    rw [pickBest] at h
    cases hr : pickBest rest with
    | none =>
      have hrest := pickBest_eq_none hr
      rw [hr] at h
      replace h : some a = some j := h
      cases h
      subst hrest
      intro x hx
      have hx' : x = a := by simpa using hx
      subst hx'
      exact better_irrefl x
    | some b =>
      rw [hr] at h
      replace h : (if better b a = true then some b else some a) = some j := h
      have hmax := ih hr
      by_cases hba : better b a = true
      · rw [if_pos hba] at h
        cases h
        intro x hx
        rcases List.mem_cons.mp hx with rfl | hx'
        · exact better_asymm hba
        · exact hmax x hx'
      · rw [if_neg hba] at h
        cases h
        intro x hx
        rcases List.mem_cons.mp hx with rfl | hx'
        · exact better_irrefl x
        · exact better_negtrans (hmax x hx') (Bool.eq_false_iff.mpr hba)

lemma storeNext_mem {js : List Job} {j : Job} (h : storeNext js = some j) :
    j ∈ js ∧ j.state = JobState.Waiting := by
  have hm := pickBest_mem h
  rw [List.mem_filter] at hm
  exact ⟨hm.1, of_decide_eq_true hm.2⟩

lemma storeNext_maximal {js : List Job} {j : Job} (h : storeNext js = some j) :
    ∀ x ∈ js, x.state = JobState.Waiting → better x j = false := by
  intro x hx hxw
  exact pickBest_maximal h x (List.mem_filter.mpr ⟨hx, by simp [hxw]⟩)

lemma map_id_updJob (i : Nat) (f : Job → Job) (hf : ∀ x, (f x).id = x.id) :
    ∀ js : List Job, (updJob i f js).map Job.id = js.map Job.id := by
  intro js
  induction js with
  | nil => rfl
  | cons a rest ih =>
    simp only [updJob, List.map_cons] at ih ⊢
    rw [ih]
    congr 1
    by_cases h : a.id = i
    · simp [h, hf]
    · simp [h]

lemma forall_mem_updJob {P : Job → Prop} {js : List Job} {i : Nat} {f : Job → Job}
    (hP : ∀ x ∈ js, P x) (hf : ∀ x ∈ js, P x → P (f x)) :
    ∀ y ∈ updJob i f js, P y := by
  intro y hy
  rw [updJob, List.mem_map] at hy
  obtain ⟨x, hx, rfl⟩ := hy
  split
  · exact hf x hx (hP x hx)
  · exact hP x hx

lemma execOutcome_id (o : Option String) (j : Job) : (execOutcome o j).id = j.id := by
  cases o with
  | none => rfl
  | some e =>
    simp only [execOutcome]
    split <;> rfl

lemma execOutcome_retry {j : Job} (h : j.retryCount ≤ j.maxRetry) (o : Option String) :
    (execOutcome o j).retryCount ≤ (execOutcome o j).maxRetry := by
  cases o with
  | none => simpa [execOutcome]
  | some e =>
    simp only [execOutcome]
    split
    next h' =>
      show j.retryCount + 1 ≤ j.maxRetry
      omega
    next h' =>
      exact h

lemma job_eq_of_id_eq {js : List Job} (hn : (js.map Job.id).Nodup)
    {a b : Job} (ha : a ∈ js) (hb : b ∈ js) (h : a.id = b.id) : a = b :=
  List.inj_on_of_nodup_map hn ha hb h

lemma pair_eq_of_fst_eq {l : List (Nat × Nat)} (hn : (l.map Prod.fst).Nodup)
    {p q : Nat × Nat} (hp : p ∈ l) (hq : q ∈ l) (h : p.1 = q.1) : p = q :=
  List.inj_on_of_nodup_map hn hp hq h

/-- The inductive invariant of the scheduling core: store identifiers are
unique, no job identifier is held by two wrappers, every held job is
Working with the recorded rank, retry counts respect the budget, and
every rank's in-flight count respects its limit. -/
def Inv (limit : Nat → Nat) (s : SysState) : Prop :=
  (s.jobs.map Job.id).Nodup ∧
  (s.held.map Prod.fst).Nodup ∧
  (∀ p ∈ s.held, ∃ j ∈ s.jobs, j.id = p.1 ∧ j.rank = p.2 ∧ j.state = JobState.Working) ∧
  (∀ j ∈ s.jobs, j.retryCount ≤ j.maxRetry) ∧
  (∀ r, inFlight s r ≤ limit r)

lemma inv_init (limit : Nat → Nat) : Inv limit ⟨[], []⟩ := by
  refine ⟨by simp, by simp, by simp, by simp, ?_⟩
  intro r
  simp [inFlight]

lemma inv_step {limit : Nat → Nat} {s s' : SysState} (hinv : Inv limit s)
    (hstep : Step limit s s') : Inv limit s' := by
  obtain ⟨hids, hheldids, hheldw, hretry, hcap⟩ := hinv
  cases hstep with
  | add j hw hrc hnew =>
    refine ⟨?_, hheldids, ?_, ?_, ?_⟩
    · rw [List.map_append, List.nodup_append]
      refine ⟨hids, by simp, ?_⟩
      intro a ha hb
      simp only [List.map_cons, List.map_nil, List.mem_singleton] at hb
      subst hb
      exact hnew ha
    · intro p hp
      obtain ⟨k, hk, h1, h2, h3⟩ := hheldw p hp
      exact ⟨k, List.mem_append_left _ hk, h1, h2, h3⟩
    · intro x hx
      rcases List.mem_append.mp hx with hx' | hx'
      · exact hretry x hx'
      · have hxj : x = j := by simpa using hx'
        subst hxj
        rw [hrc]
        exact Nat.zero_le _
    · intro r
      exact hcap r
  | next j hnext hcapj =>
    obtain ⟨hjmem, hjwait⟩ := storeNext_mem hnext
    have hids' : (markWorking j.id s.jobs).map Job.id = s.jobs.map Job.id :=
      map_id_updJob j.id (fun x => { x with state := JobState.Working })
        (fun x => rfl) s.jobs
    have hjnotheld : j.id ∉ s.held.map Prod.fst := by
      intro hmem
      rw [List.mem_map] at hmem
      obtain ⟨p, hp, hfst⟩ := hmem
      obtain ⟨k, hk, h1, h2, h3⟩ := hheldw p hp
      have hkj : k = j := job_eq_of_id_eq hids hk hjmem (by rw [h1]; exact hfst)
      subst hkj
      rw [hjwait] at h3
      exact JobState.noConfusion h3
    refine ⟨?_, ?_, ?_, ?_, ?_⟩
    · show ((markWorking j.id s.jobs).map Job.id).Nodup
      rw [hids']
      exact hids
    · show (((j.id, j.rank) :: s.held).map Prod.fst).Nodup
      rw [List.map_cons]
      exact List.nodup_cons.mpr ⟨hjnotheld, hheldids⟩
    · intro p hp
      rcases List.mem_cons.mp hp with rfl | hp'
      · refine ⟨{ j with state := JobState.Working }, ?_, rfl, rfl, rfl⟩
        have hm := List.mem_map_of_mem
          (fun x => if decide (x.id = j.id) = true then
            { x with state := JobState.Working } else x) hjmem
        simpa [markWorking, updJob] using hm
      · obtain ⟨k, hk, h1, h2, h3⟩ := hheldw p hp'
        by_cases hkj : k.id = j.id
        · refine ⟨{ k with state := JobState.Working }, ?_, h1, h2, rfl⟩
          have hm := List.mem_map_of_mem
            (fun x => if decide (x.id = j.id) = true then
              { x with state := JobState.Working } else x) hk
          simpa [markWorking, updJob, hkj] using hm
        · refine ⟨k, ?_, h1, h2, h3⟩
          have hm := List.mem_map_of_mem
            (fun x => if decide (x.id = j.id) = true then
              { x with state := JobState.Working } else x) hk
          simpa [markWorking, updJob, hkj] using hm
    · exact forall_mem_updJob hretry (fun x hx hP => hP)
    · intro r
      show (((j.id, j.rank) :: s.held).filter fun p => decide (p.2 = r)).length ≤ limit r
      rw [List.filter_cons]
      by_cases hr : j.rank = r
      · rw [if_pos (by simpa using hr)]
        rw [List.length_cons]
        rw [hr] at hcapj
        exact hcapj
      · rw [if_neg (by simpa using hr)]
        exact hcap r
  | finish i r o hmem =>
    have hheld_nodup : s.held.Nodup := List.Nodup.of_map Prod.fst hheldids
    have hids' := map_id_updJob i (execOutcome o) (execOutcome_id o) s.jobs
    refine ⟨?_, ?_, ?_, ?_, ?_⟩
    · show ((updJob i (execOutcome o) s.jobs).map Job.id).Nodup
      rw [hids']
      exact hids
    · have hsub : (s.held.erase (i, r)).Sublist s.held := List.erase_sublist ..
      exact hheldids.sublist (hsub.map Prod.fst)
    · intro p hp
      obtain ⟨hpne, hpmem⟩ := (List.Nodup.mem_erase_iff hheld_nodup).mp hp
      obtain ⟨k, hk, h1, h2, h3⟩ := hheldw p hpmem
      have hki : k.id ≠ i := by
        intro hki
        exact hpne (pair_eq_of_fst_eq hheldids hpmem hmem (by rw [← h1]; exact hki))
      refine ⟨k, ?_, h1, h2, h3⟩
      have hm := List.mem_map_of_mem
        (fun x => if decide (x.id = i) = true then execOutcome o x else x) hk
      simpa [applyOutcome, updJob, hki] using hm
    · exact forall_mem_updJob hretry (fun x hx hP => execOutcome_retry hP o)
    · intro r'
      show ((s.held.erase (i, r)).filter fun p => decide (p.2 = r')).length ≤ limit r'
      have hsub : ((s.held.erase (i, r)).filter fun p => decide (p.2 = r')).Sublist
          (s.held.filter fun p => decide (p.2 = r')) :=
        List.Sublist.filter _ (List.erase_sublist ..)
      exact le_trans hsub.length_le (hcap r')

lemma reachable_inv {limit : Nat → Nat} {s : SysState} (h : Reachable limit s) :
    Inv limit s := by
  induction h with
  | init => exact inv_init limit
  | step h hstep ih => exact inv_step ih hstep

lemma findJob_updJob (i i' : Nat) (f : Job → Job) (hf : ∀ x, (f x).id = x.id)
    (js : List Job) :
    (updJob i' f js).find? (fun x => decide (x.id = i)) =
      (js.find? (fun x => decide (x.id = i))).map
        (fun x => if decide (x.id = i') = true then f x else x) := by
  have hgid : ∀ x : Job,
      ((if decide (x.id = i') = true then f x else x) : Job).id = x.id := by
    intro x
    split
    · exact hf x
    · rfl
  rw [updJob, List.find?_map]
  have hcomp : ((fun x => decide (x.id = i)) ∘
      fun x => if decide (x.id = i') = true then f x else x) =
      fun x : Job => decide (x.id = i) := by
    funext x
    show decide (((if decide (x.id = i') = true then f x else x) : Job).id = i) =
      decide (x.id = i)
    rw [hgid x]
  rw [hcomp]

lemma findJob_mem {s : SysState} {i : Nat} {j : Job} (h : findJob s i = some j) :
    j ∈ s.jobs ∧ j.id = i := by
  have h' : s.jobs.find? (fun x => decide (x.id = i)) = some j := h
  have hp := List.find?_some h'
  simp only [decide_eq_true_eq] at hp
  exact ⟨List.mem_of_find?_eq_some h', hp⟩

/-- Modelled from the spec: the per-rank capacity pool of §4.3 with its
`limit` and `inFlight` counters (the rank-pool code is not under src/). -/
structure Pools where
  limit : Nat → Nat
  inFlight : Nat → Nat

/-- Modelled from the spec: `TryAcquire(rank)` atomically succeeds iff
`inFlight < limit`, incrementing `inFlight` (§4.3). -/
def tryAcquire (r : Nat) (p : Pools) : Option Pools :=
  if p.inFlight r < p.limit r then
    some { p with inFlight := Function.update p.inFlight r (p.inFlight r + 1) }
  else
    none

/-- Modelled from the spec: `Release(rank)` decrements `inFlight` (§4.3). -/
def release (r : Nat) (p : Pools) : Pools :=
  { p with inFlight := Function.update p.inFlight r (p.inFlight r - 1) }

/-- One failed execution attempt of a job: the handler errs with message
`e` and the Execution Wrapper maps the outcome through `execOutcome`. -/
def failAttempt (e : String) (j : Job) : Job := execOutcome (some e) j

lemma failAttempt_iter (e : String) (j : Job) (hrc : j.retryCount = 0) :
    ∀ k, k ≤ j.maxRetry →
      ((failAttempt e)^[k] j).retryCount = k ∧
      ((failAttempt e)^[k] j).maxRetry = j.maxRetry := by
  intro k
  induction k with
  | zero => intro _; exact ⟨hrc, rfl⟩
  | succ k ih =>
    intro hk
    obtain ⟨ih1, ih2⟩ := ih (Nat.le_of_succ_le hk)
    rw [Function.iterate_succ_apply']
    constructor
    · simp only [failAttempt, execOutcome]
      rw [if_pos (by rw [ih1, ih2]; omega)]
      show ((failAttempt e)^[k] j).retryCount + 1 = k + 1
      rw [ih1]
    · simp only [failAttempt, execOutcome]
      rw [if_pos (by rw [ih1, ih2]; omega)]
      show ((failAttempt e)^[k] j).maxRetry = j.maxRetry
      exact ih2

lemma failAttempt_final (e : String) (j : Job) (hrc : j.retryCount = 0) :
    ((failAttempt e)^[j.maxRetry + 1] j).state = JobState.Failed ∧
    ((failAttempt e)^[j.maxRetry + 1] j).retryCount = j.maxRetry := by
  obtain ⟨ih1, ih2⟩ := failAttempt_iter e j hrc j.maxRetry (le_refl _)
  rw [Function.iterate_succ_apply']
  have hnot : ¬ ((failAttempt e)^[j.maxRetry] j).retryCount <
      ((failAttempt e)^[j.maxRetry] j).maxRetry := by
    rw [ih1, ih2]
    omega
  constructor
  · simp only [failAttempt, execOutcome]
    rw [if_neg hnot]
  · simp only [failAttempt, execOutcome]
    rw [if_neg hnot]
    exact ih1

/-- Modelled from the spec: what the dispatch loop does with a `Next`
result (§4.4 step 1 and §7: a `(nil, nil)` result is the idle path, a
store error is logged and retried, a job is handed to a worker). -/
inductive DispatchAction where
  | idle
  | handle (j : Job)
  | storeFailure (e : String)
deriving DecidableEq

/-- Modelled from the spec: the full `(*Job, error)` result of
`Store.Next` (src/store.go lines 35-42); the in-memory selection model
never fails, and §6.1 requires `(nil, nil)` when no job is ready. -/
def storeNextE (js : List Job) : Option Job × Option String := (storeNext js, none)

/-- Modelled from the spec: the dispatch loop's case split on a `Next`
result. -/
def dispatchReact : Option Job × Option String → DispatchAction
  | (some j, _) => DispatchAction.handle j
  | (none, some e) => DispatchAction.storeFailure e
  | (none, none) => DispatchAction.idle

/-- Result of `CloseWithTimeout`: clean drain or a timeout indication. -/
inductive CloseResult where
  | ok
  | timeoutErr
deriving DecidableEq

/-- Modelled from the spec: the Manager's shutdown-relevant state — the
acceptance flag and the in-flight executions, each paired with its
remaining execution duration. -/
structure MState where
  accepting : Bool
  inflight : List (Job × Nat)
deriving DecidableEq

/-- Modelled from the spec: `CloseWithTimeout(d)` (§4.7): stop accepting
new work; an in-flight execution with remaining duration `t` finishes
iff `d` is negative (wait indefinitely) or `t ≤ d`; the rest are left
in place (their handlers are not forcibly terminated).  Returns a
timeout indication iff some execution did not finish. -/
def closeWithTimeout (d : Int) (m : MState) : CloseResult × MState :=
  let leftover := m.inflight.filter fun p => decide (0 ≤ d) && decide (d < (p.2 : Int))
  (if leftover.isEmpty then CloseResult.ok else CloseResult.timeoutErr,
   { accepting := false, inflight := leftover })

/-- The processor type of src/processor.go: `type Processor func(*Job)
error`, with `none` standing for a nil error. -/
def Processor : Type := Job → Option String

/-- Modelled from the spec: the Execution Wrapper (§4.5) invoking the
processor on the popped job and mapping the outcome through
`execOutcome`. -/
def execWrapper (p : Processor) (j : Job) : Job := execOutcome (p j) j

/-- The two persistent store backends the e2e driver can construct. -/
inductive StoreKind where
  | mysql
  | mongodb
deriving DecidableEq

/-- Manager construction options, from e2e/main.go lines 167-174. -/
inductive ManagerOption where
  | setStore (k : StoreKind)
  | setConcurrency (rank : Nat) (c : Int)
deriving DecidableEq

/-- The option list built by e2e/main.go lines 167-174: `SetStore` only
when the store variable is non-nil, then `SetConcurrency(rank, c)` for
each rank in `[0, ranks)`. -/
def mainOptions (store : Option StoreKind) (ranks conc : Int) : List ManagerOption :=
  (match store with
   | some k => [ManagerOption.setStore k]
   | none => []) ++
    (List.range ranks.toNat).map fun r => ManagerOption.setConcurrency r conc

/-- Outcome of the e2e driver's setup phase: a fatal exit or a manager
configured with an optional store and an option list. -/
inductive MainOutcome where
  | fatal (msg : String)
  | run (store : Option StoreKind) (opts : List ManagerOption)
deriving DecidableEq

/-- The flag-validation and store-selection control flow of
e2e/main.go lines 135-175: `ranks ≤ 0` and an empty `dburl` exit
fatally before `dbtype` is examined; the `"memory"` case leaves the
store variable nil, so `SetStore` is skipped and the manager keeps its
default store.  Store-construction errors are not modelled; they only
add further fatal exits after the `dburl` check. -/
def mainConfig (ranks conc : Int) (dbtype dburl : String) : MainOutcome :=
  if ranks ≤ 0 then MainOutcome.fatal "r must be greater than 0"
  else if dburl = "" then
    MainOutcome.fatal "specify a database connection string with -dburl"
  else if dbtype = "mysql" then
    MainOutcome.run (some StoreKind.mysql)
      (mainOptions (some StoreKind.mysql) ranks conc)
  else if dbtype = "mongodb" then
    MainOutcome.run (some StoreKind.mongodb)
      (mainOptions (some StoreKind.mongodb) ranks conc)
  else if dbtype = "memory" then
    MainOutcome.run none (mainOptions none ranks conc)
  else MainOutcome.fatal "unsupported dbtype; use either mysql or mongodb"

/-- A uniform rank limit of one, for concrete runs. -/
def limit1 : Nat → Nat := fun _ => 1

/-- A concrete job with no retry budget. -/
def jA : Job := ⟨1, "a", 0, 5, 0, 0, "", "", "", JobState.Waiting, 10, none⟩

/-- A second concrete job with a distinct identifier. -/
def jB : Job := ⟨2, "b", 0, 3, 1, 0, "", "", "", JobState.Waiting, 20, none⟩

/-- The job `jA` after a terminally failed execution. -/
def jFailed : Job := { jA with state := JobState.Failed, lastError := some "boom" }

/-- The system after adding `jA`. -/
def sys1 : SysState := ⟨[jA], []⟩

/-- The system after the dispatch loop popped `jA`. -/
def sys2 : SysState := ⟨[{ jA with state := JobState.Working }], [(1, 0)]⟩

/-- The system after `jA`'s handler failed with no budget left. -/
def sys3 : SysState := ⟨[jFailed], []⟩

/-- The system after a further job was added alongside the failed one. -/
def sys4 : SysState := ⟨[jFailed, jB], []⟩

lemma reach_sys1 : Reachable limit1 sys1 :=
  Reachable.step Reachable.init (Step.add ⟨[], []⟩ jA rfl rfl (by decide))

lemma reach_sys2 : Reachable limit1 sys2 :=
  Reachable.step reach_sys1 (Step.next sys1 jA rfl (by decide))

lemma reach_sys3 : Reachable limit1 sys3 :=
  Reachable.step reach_sys2 (Step.finish sys2 1 0 (some "boom") (by decide))

/-- C1: At-most-one concurrent execution — in every reachable scheduler
state the job identifiers held by Execution Wrapper instances are
pairwise distinct (so no two concurrent `Next` calls obtained the same
job, whatever the interleaving of producers and workers), and every held
job is in the Working state. -/
theorem next_at_most_one_holder {limit : Nat → Nat} {s : SysState}
    (hr : Reachable limit s) :
    (s.held.map Prod.fst).Nodup ∧
    ∀ p ∈ s.held, ∃ j ∈ s.jobs, j.id = p.1 ∧ j.state = JobState.Working := by
  obtain ⟨hids, hheldids, hheldw, hretry, hcap⟩ := reachable_inv hr
  refine ⟨hheldids, ?_⟩
  intro p hp
  obtain ⟨j, hj, h1, h2, h3⟩ := hheldw p hp
  exact ⟨j, hj, h1, h3⟩

/-- Witness for C1 at a concrete reachable state with one held job. -/
theorem next_at_most_one_holder_witness :
    (sys2.held.map Prod.fst).Nodup ∧
    ∀ p ∈ sys2.held, ∃ j ∈ sys2.jobs, j.id = p.1 ∧ j.state = JobState.Working :=
  next_at_most_one_holder reach_sys2

/-- C2: Retry budget invariant — in every reachable state every job has
`RetryCount ≤ MaxRetry`, and a job whose handler fails on every attempt
(`MaxRetry + 1` failed attempts from a fresh retry count) ends Failed,
not Waiting. -/
theorem retry_budget_invariant {limit : Nat → Nat} {s : SysState}
    (hr : Reachable limit s) :
    (∀ j ∈ s.jobs, j.retryCount ≤ j.maxRetry) ∧
    (∀ (j : Job) (e : String), j.retryCount = 0 →
      ((failAttempt e)^[j.maxRetry + 1] j).state = JobState.Failed ∧
      ((failAttempt e)^[j.maxRetry + 1] j).state ≠ JobState.Waiting) := by
  obtain ⟨hids, hheldids, hheldw, hretry, hcap⟩ := reachable_inv hr
  refine ⟨hretry, ?_⟩
  intro j e hrc
  obtain ⟨h1, h2⟩ := failAttempt_final e j hrc
  refine ⟨h1, ?_⟩
  rw [h1]
  intro hc
  exact JobState.noConfusion hc

/-- Witness for C2 at a concrete reachable state. -/
theorem retry_budget_invariant_witness :
    (∀ j ∈ sys3.jobs, j.retryCount ≤ j.maxRetry) ∧
    (∀ (j : Job) (e : String), j.retryCount = 0 →
      ((failAttempt e)^[j.maxRetry + 1] j).state = JobState.Failed ∧
      ((failAttempt e)^[j.maxRetry + 1] j).state ≠ JobState.Waiting) :=
  retry_budget_invariant reach_sys3

/-- C3: Outcome-to-state mapping of the Execution Wrapper — for a
Working job, success maps to Succeeded; a handler error increments
`RetryCount` and re-queues to Waiting while `RetryCount < MaxRetry`, and
maps to Failed with `LastError` set once the budget is exhausted. -/
theorem exec_outcome_mapping (j : Job) (h : j.state = JobState.Working) :
    ((execOutcome none j).state = JobState.Succeeded) ∧
    (∀ e : String,
      (j.retryCount < j.maxRetry →
        (execOutcome (some e) j).retryCount = j.retryCount + 1 ∧
        (execOutcome (some e) j).state = JobState.Waiting) ∧
      (j.maxRetry ≤ j.retryCount →
        (execOutcome (some e) j).state = JobState.Failed ∧
        (execOutcome (some e) j).lastError = some e)) := by
  refine ⟨rfl, ?_⟩
  intro e
  constructor
  · intro hlt
    simp only [execOutcome]
    rw [if_pos hlt]
    exact ⟨rfl, rfl⟩
  · intro hge
    simp only [execOutcome]
    rw [if_neg (by omega)]
    exact ⟨rfl, rfl⟩

/-- Witness for C3: a Working job with an exhausted budget fails with
its error recorded. -/
theorem exec_outcome_mapping_witness :
    (execOutcome (some "boom") { jA with state := JobState.Working }).state =
      JobState.Failed ∧
    (execOutcome (some "boom") { jA with state := JobState.Working }).lastError =
      some "boom" :=
  ((exec_outcome_mapping { jA with state := JobState.Working } rfl).2 "boom").2
    (by decide)

/-- Job J1 of the spec's priority scenario: priority 5, Waiting. -/
def J1 : Job := ⟨11, "t", 0, 5, 0, 0, "", "", "", JobState.Waiting, 100, none⟩

/-- Job J2 of the spec's priority scenario: priority 1, Waiting, and
submitted earlier than J1. -/
def J2 : Job := ⟨22, "t", 0, 1, 0, 0, "", "", "", JobState.Waiting, 50, none⟩

/-- C4: Priority ordering of `Next` — the selected job is a Waiting job
no other Waiting job beats (higher priority first, earlier `CreatedAt`
on ties), and concretely J1 (priority 5) is returned before J2
(priority 1) in either submission order. -/
theorem next_priority_ordering :
    (∀ (js : List Job) (j : Job), storeNext js = some j →
      j ∈ js ∧ j.state = JobState.Waiting ∧
      ∀ x ∈ js, x.state = JobState.Waiting → better x j = false) ∧
    storeNext [J1, J2] = some J1 ∧
    storeNext [J2, J1] = some J1 ∧
    storeNext (markWorking J1.id [J2, J1]) = some J2 := by
  refine ⟨?_, rfl, rfl, rfl⟩
  intro js j h
  obtain ⟨h1, h2⟩ := storeNext_mem h
  exact ⟨h1, h2, storeNext_maximal h⟩

/-- Witness for C4's universally quantified part at a concrete store. -/
theorem next_priority_ordering_witness :
    J1 ∈ [J1, J2] ∧ J1.state = JobState.Waiting ∧
      ∀ x ∈ [J1, J2], x.state = JobState.Waiting → better x J1 = false :=
  next_priority_ordering.1 [J1, J2] J1 rfl

/-- C5: Rank-pool capacity — `TryAcquire` succeeds exactly when
`inFlight < limit` and then increments only that rank's counter,
`Release` decrements it, and in every reachable state each rank's
in-flight count is bounded by its limit; in particular a rank with
limit 1 never has more than one concurrent execution, independent of
other ranks.  (Counters are ℕ, so both are ≥ 0 by construction.) -/
theorem rank_pool_capacity (p : Pools) (r : Nat) {limit : Nat → Nat} {s : SysState}
    (hr : Reachable limit s) :
    ((tryAcquire r p).isSome ↔ p.inFlight r < p.limit r) ∧
    (∀ q, tryAcquire r p = some q →
      q.inFlight r = p.inFlight r + 1 ∧ q.limit = p.limit ∧
      ∀ r', r' ≠ r → q.inFlight r' = p.inFlight r') ∧
    ((release r p).inFlight r = p.inFlight r - 1 ∧
      ∀ r', r' ≠ r → (release r p).inFlight r' = p.inFlight r') ∧
    (∀ r', inFlight s r' ≤ limit r') ∧
    (∀ rA, limit rA = 1 → inFlight s rA ≤ 1) := by
  obtain ⟨hids, hheldids, hheldw, hretry, hcap⟩ := reachable_inv hr
  refine ⟨⟨?_, ?_⟩, ?_, ⟨?_, ?_⟩, hcap, ?_⟩
  · intro hs
    by_contra hlt
    rw [tryAcquire, if_neg hlt] at hs
    exact Bool.noConfusion hs
  · intro hlt
    rw [tryAcquire, if_pos hlt]
    rfl
  · intro q hq
    rw [tryAcquire] at hq
    split at hq
    · cases hq
      exact ⟨Function.update_same .., rfl,
        fun r' h' => Function.update_noteq h' _ _⟩
    · exact Option.noConfusion hq
  · exact Function.update_same ..
  · exact fun r' h' => Function.update_noteq h' _ _
  · intro rA hA
    rw [← hA]
    exact hcap rA

/-- A concrete pool with limit 1 and nothing in flight. -/
def pool1 : Pools := ⟨fun _ => 1, fun _ => 0⟩

/-- Witness for C5: rank 0 has limit 1, and the concrete reachable state
with one held execution respects the bound. -/
theorem rank_pool_capacity_witness : inFlight sys2 0 ≤ 1 :=
  (rank_pool_capacity pool1 0 reach_sys2).2.2.2.2 0 rfl

/-- C6: Terminal states are absorbing — once a stored job is Succeeded
or Failed, no scheduler step (`Add`, dispatch `Next`, or execution
finish) ever changes its record again; re-running it requires a new job
with a fresh identifier. -/
theorem terminal_states_absorbing {limit : Nat → Nat} {s s' : SysState}
    {i : Nat} {j : Job}
    (hr : Reachable limit s) (hstep : Step limit s s')
    (hfind : findJob s i = some j)
    (hterm : j.state = JobState.Succeeded ∨ j.state = JobState.Failed) :
    findJob s' i = some j := by
  obtain ⟨hids, hheldids, hheldw, hretry, hcap⟩ := reachable_inv hr
  obtain ⟨hjmem, hjid⟩ := findJob_mem hfind
  have hjnw : j.state ≠ JobState.Waiting := by
    rcases hterm with h | h <;> simp [h]
  have hjnwork : j.state ≠ JobState.Working := by
    rcases hterm with h | h <;> simp [h]
  replace hfind : s.jobs.find? (fun x => decide (x.id = i)) = some j := hfind
  cases hstep with
  | add k hw hrc hnew =>
    show (s.jobs ++ [k]).find? (fun x => decide (x.id = i)) = some j
    rw [List.find?_append, hfind]
    rfl
  | next k hnext hcapk =>
    obtain ⟨hkmem, hkwait⟩ := storeNext_mem hnext
    show (markWorking k.id s.jobs).find? (fun x => decide (x.id = i)) = some j
    rw [markWorking,
      findJob_updJob i k.id (fun x => { x with state := JobState.Working })
        (fun x => rfl), hfind]
    have hne : j.id ≠ k.id := by
      intro he
      have hjk : j = k := job_eq_of_id_eq hids hjmem hkmem he
      exact hjnw (by rw [hjk]; exact hkwait)
    simp [hne]
  | finish i0 r o hmem =>
    obtain ⟨k, hk, h1, h2, h3⟩ := hheldw (i0, r) hmem
    show (applyOutcome i0 o s.jobs).find? (fun x => decide (x.id = i)) = some j
    rw [applyOutcome, findJob_updJob i i0 (execOutcome o) (execOutcome_id o),
      hfind]
    have hne : j.id ≠ i0 := by
      intro he
      have hjk : j = k := job_eq_of_id_eq hids hjmem hk (by rw [he]; exact h1.symm)
      exact hjnwork (by rw [hjk]; exact h3)
    simp [hne]

/-- Witness for C6: the failed job of `sys3` is untouched by a further
`add` step. -/
theorem terminal_states_absorbing_witness : findJob sys4 1 = some jFailed :=
  terminal_states_absorbing reach_sys3
    (Step.add sys3 jB rfl rfl (by decide)) rfl (Or.inr rfl)

/-- C7: Idle `Next` is not an error — when no stored job is Waiting,
`Next` returns `(nil, nil)`, and the dispatch loop's reaction to that
result is the idle path, not a store failure. -/
theorem idle_next_not_error (js : List Job)
    (h : ∀ j ∈ js, j.state ≠ JobState.Waiting) :
    storeNextE js = (none, none) ∧
    dispatchReact (storeNextE js) = DispatchAction.idle ∧
    ∀ e, dispatchReact (storeNextE js) ≠ DispatchAction.storeFailure e := by
  have hfilter : js.filter (fun j => decide (j.state = JobState.Waiting)) = [] := by
    rw [List.filter_eq_nil_iff]
    intro a ha
    simp only [decide_eq_true_eq]
    exact h a ha
  have hnone : storeNext js = none := by
    rw [storeNext, hfilter]
    rfl
  refine ⟨?_, ?_, ?_⟩
  · rw [storeNextE, hnone]
  · rw [storeNextE, hnone]
    rfl
  · intro e
    rw [storeNextE, hnone]
    intro hc
    exact DispatchAction.noConfusion hc

/-- Witness for C7: a store holding only a Working job is idle. -/
theorem idle_next_not_error_witness :
    storeNextE [{ jA with state := JobState.Working }] = (none, none) ∧
    dispatchReact (storeNextE [{ jA with state := JobState.Working }]) =
      DispatchAction.idle ∧
    ∀ e, dispatchReact (storeNextE [{ jA with state := JobState.Working }]) ≠
      DispatchAction.storeFailure e :=
  idle_next_not_error [{ jA with state := JobState.Working }] (by decide)

/-- C8: Shutdown drain semantics — `CloseWithTimeout d` always stops
acceptance of new work; a negative `d` waits for everything; what is
left in flight was in flight before (no forcible termination); and
`CloseWithTimeout 0` with a mid-execution job (positive remaining
duration) reports a timeout and leaves that job's record, still
Working, in flight. -/
theorem close_with_timeout_drain (d : Int) (m : MState) :
    ((closeWithTimeout d m).2.accepting = false) ∧
    (d < 0 → closeWithTimeout d m = (CloseResult.ok, ⟨false, []⟩)) ∧
    (∀ p ∈ (closeWithTimeout d m).2.inflight, p ∈ m.inflight) ∧
    (∀ (j : Job) (r : Nat), (j, r) ∈ m.inflight → 0 < r →
      (closeWithTimeout 0 m).1 = CloseResult.timeoutErr ∧
      (j, r) ∈ (closeWithTimeout 0 m).2.inflight) := by
  refine ⟨rfl, ?_, ?_, ?_⟩
  · intro hd
    have hflt : m.inflight.filter
        (fun p => decide (0 ≤ d) && decide (d < (p.2 : Int))) = [] := by
      rw [List.filter_eq_nil_iff]
      intro a ha
      simp only [Bool.and_eq_true, decide_eq_true_eq, not_and]
      intro h1 h2
      omega
    simp [closeWithTimeout, hflt]
  · intro p hp
    replace hp : p ∈ m.inflight.filter
        (fun q => decide (0 ≤ d) && decide (d < (q.2 : Int))) := hp
    exact (List.mem_filter.mp hp).1
  · intro j r hmem hr
    have hp : (decide (0 ≤ (0 : Int)) &&
        decide ((0 : Int) < (((j, r).2 : Nat) : Int))) = true := by
      simp only [Bool.and_eq_true, decide_eq_true_eq]
      exact ⟨le_refl 0, by exact_mod_cast hr⟩
    have hmem' : (j, r) ∈ m.inflight.filter
        (fun q => decide (0 ≤ (0 : Int)) && decide ((0 : Int) < (q.2 : Int))) :=
      List.mem_filter.mpr ⟨hmem, hp⟩
    constructor
    · show (if (m.inflight.filter
          (fun q => decide (0 ≤ (0 : Int)) &&
            decide ((0 : Int) < (q.2 : Int)))).isEmpty = true
        then CloseResult.ok else CloseResult.timeoutErr) = CloseResult.timeoutErr
      rw [if_neg]
      rw [List.isEmpty_iff]
      exact List.ne_nil_of_mem hmem'
    · exact hmem'

/-- A concrete manager state with one mid-execution job needing 5 more
time units. -/
def mW : MState := ⟨true, [({ jA with state := JobState.Working }, 5)]⟩

/-- Witness for C8's timeout scenario at `CloseWithTimeout 0`. -/
theorem close_with_timeout_drain_witness :
    (closeWithTimeout 0 mW).1 = CloseResult.timeoutErr ∧
    ({ jA with state := JobState.Working }, 5) ∈
      (closeWithTimeout 0 mW).2.inflight :=
  (close_with_timeout_drain 0 mW).2.2.2
    { jA with state := JobState.Working } 5 (by decide) (by decide)

/-- C9: Processor invocation contract — the Execution Wrapper's result
is exactly `execOutcome` of the processor's verdict on the popped job,
the wrapper passes the payload through unchanged, and a processor
honouring the §6.2 purity contract is a function of the payload alone. -/
theorem processor_invocation_contract (p : Processor) (j : Job)
    (hp : ∀ a b : Job, a.args = b.args → p a = p b) :
    (∀ x, execWrapper p x = execOutcome (p x) x) ∧
    (execWrapper p j).args = j.args ∧
    (∃ f : String → Option String, ∀ x, p x = f x.args) := by
  refine ⟨fun x => rfl, ?_, ?_⟩
  · show (execOutcome (p j) j).args = j.args
    cases p j with
    | none => rfl
    | some e =>
      simp only [execOutcome]
      split <;> rfl
  · refine ⟨fun a => p { j with args := a }, ?_⟩
    intro x
    exact hp x { j with args := x.args } rfl

/-- The trivially successful processor. -/
def procNone : Processor := fun _ => none

/-- Witness for C9 with the always-succeeding processor. -/
theorem processor_invocation_contract_witness :
    (∀ x, execWrapper procNone x = execOutcome (procNone x) x) ∧
    (execWrapper procNone jA).args = jA.args ∧
    (∃ f : String → Option String, ∀ x, procNone x = f x.args) :=
  processor_invocation_contract procNone jA (fun a b hab => rfl)

/-- C10: e2e driver flag gating — with an empty `-dburl` the driver
exits fatally without examining `-dbtype` (the result is the same for
every `dbtype`, including the advertised `"memory"`); and with valid
flags the `"memory"` selection leaves the store variable nil, so no
`SetStore` option is passed and the manager keeps its default store. -/
theorem e2e_flag_gating (ranks conc : Int) (dbtype dburl : String) :
    (∀ t : String, mainConfig ranks conc dbtype "" = mainConfig ranks conc t "") ∧
    (∃ msg, mainConfig ranks conc dbtype "" = MainOutcome.fatal msg) ∧
    (0 < ranks → dburl ≠ "" →
      mainConfig ranks conc "memory" dburl =
        MainOutcome.run none (mainOptions none ranks conc) ∧
      ∀ k, ManagerOption.setStore k ∉ mainOptions none ranks conc) := by
  refine ⟨?_, ?_, ?_⟩
  · intro t
    by_cases hrk : ranks ≤ 0
    · simp [mainConfig, hrk]
    · simp [mainConfig, hrk]
  · by_cases hrk : ranks ≤ 0
    · exact ⟨"r must be greater than 0", by simp [mainConfig, hrk]⟩
    · exact ⟨"specify a database connection string with -dburl",
        by simp [mainConfig, hrk]⟩
  · intro hrk hurl
    constructor
    · rw [mainConfig, if_neg (by omega), if_neg hurl, if_neg (by decide),
        if_neg (by decide), if_pos rfl]
    · intro k
      rw [mainOptions]
      simp

/-- Witness for C10: concrete flags `ranks = 1`, `-dbtype memory`, a
non-empty `-dburl`. -/
theorem e2e_flag_gating_witness :
    mainConfig 1 2 "memory" "root@tcp(127.0.0.1:3306)/jobqueue_e2e" =
      MainOutcome.run none (mainOptions none 1 2) ∧
    ∀ k, ManagerOption.setStore k ∉ mainOptions none 1 2 :=
  (e2e_flag_gating 1 2 "memory" "root@tcp(127.0.0.1:3306)/jobqueue_e2e").2.2
    (by decide) (by decide)

end JobQueue
